import Mathlib

/-!
Verification of the team-formation scheduler (src/utils/schedular.js).

This file shallowly embeds the transactional scheduler: the data model
(hackathons, teams, team members), the Fisher-Yates shuffle, the greedy
contiguous chunking of the shuffled participant list, the per-hackathon
transactional formation pass with fault injection, and the per-tick driver
with its eligibility query.  Randomness (shuffle choices, problem picks,
team names) is passed in explicitly, mirroring an injectable random
source.  Machine-level concerns (ObjectId representation, BSON) are
modelled with Nat identities and plain strings.
-/

/-- Hackathon status enumeration (subset used by the scheduler). -/
inductive HStatus
  | registration_open
  | registration_closed
  | upcoming
  deriving DecidableEq, Repr

/-- Participant document as populated by the selector
(select "name email skills"; skills are irrelevant to the scheduler). -/
structure UserDoc where
  uid : Nat
  name : String
  email : String
  deriving DecidableEq, Repr

/-- Hackathon document fields read or written by the scheduler. -/
structure HackathonDoc where
  hid : Nat
  title : String
  registrationDeadline : Int
  isActive : Bool
  status : HStatus
  maxTeamSize : Nat
  problemStatements : List String
  participants : List UserDoc
  teamsFormed : Bool
  deriving DecidableEq, Repr

/-- Team document as created by Team.create in the formation pass. -/
structure TeamDoc where
  tid : Nat
  hackathonId : Nat
  name : String
  problemStatement : String
  submissionStatus : String
  deriving DecidableEq, Repr

/-- Membership role: first member of a chunk is leader, the rest developers. -/
inductive Role
  | leader
  | developer
  deriving DecidableEq, Repr

/-- TeamMember document as created by TeamMember.create. -/
structure TeamMemberDoc where
  teamId : Nat
  userId : Nat
  role : Role
  status : String
  deriving DecidableEq, Repr

/-- Persistent store: the collections the scheduler touches, plus the
id allocator for newly created teams. -/
structure Store where
  hackathons : List HackathonDoc
  teams : List TeamDoc
  teamMembers : List TeamMemberDoc
  nextTeamId : Nat
  deriving DecidableEq, Repr

/-- Payload of one sendTeamNotification call. -/
structure EmailPayload where
  email : String
  name : String
  hackathonTitle : String
  teammates : List String
  problemStatement : String
  teamName : String
  deriving DecidableEq, Repr

/-- Observable actions of one formation run, in program order. -/
inductive RunAction
  | emailInvoke (p : EmailPayload)
  | txCommit
  | txAbort
  | emitTeamsFormed (hid : Nat) (teamIds : List Nat)
  | emailsSettle
  | logSkip (msg : String)
  deriving DecidableEq, Repr

/-- Recognizer for email-invocation actions. -/
def RunAction.isEmailInvoke : RunAction → Bool
  | .emailInvoke _ => true
  | _ => false

/-- Recognizer for the real-time teams-formed emission. -/
def RunAction.isEmit : RunAction → Bool
  | .emitTeamsFormed _ _ => true
  | _ => false

/-- Recognizer for the transaction commit action. -/
def RunAction.isCommit : RunAction → Bool
  | .txCommit => true
  | _ => false

/-- Environment of one formation run: the random draws consumed by the
pass (shuffle swap targets, per-team problem index, per-team name) and
an injected fault, `some k` meaning the k-th session write operation
(Team.create, each TeamMember.create, the hackathon update, then the
commit itself, counted in program order) throws. -/
structure Env where
  shuffleChoices : List Nat
  probPick : Nat → Nat
  teamName : Nat → String
  fault : Option Nat

/-- Swap of two list positions, as in the destructuring assignment
`[a[i], a[j]] = [a[j], a[i]]`; out-of-range indices leave the list
unchanged (the loop only produces in-range indices). -/
def swapL (l : List α) (i j : Nat) : List α :=
  match l[i]?, l[j]? with
  | some a, some b => (l.set i b).set j a
  | _, _ => l

/-- Descending Fisher-Yates loop: `fyAux l i cs` performs the iterations
for indices i, i-1, ..., 1, consuming one choice per iteration
(`for (let i = n - 1; i > 0; i--) ... j = floor(random()*(i+1))`). -/
def fyAux : List α → Nat → List Nat → List α
  | l, 0, _ => l
  | l, _ + 1, [] => l
  | l, i + 1, c :: cs => fyAux (swapL l (i + 1) c) i cs

/-- Fisher-Yates shuffle of `[...participants]` driven by the choice
stream `cs` (`cs` lists the drawn values of j, outermost first). -/
def fisherYates (l : List α) (cs : List Nat) : List α :=
  fyAux l (l.length - 1) cs

/-- Validity of a Fisher-Yates choice stream for a list of length n:
one choice per loop iteration, the k-th drawn j satisfying
j ≤ i where i = n-1-k, exactly the range of floor(random()*(i+1)). -/
def validChoices (n : Nat) (cs : List Nat) : Prop :=
  cs.length = n - 1 ∧ ∀ k < n - 1, cs.getD k 0 ≤ n - 1 - k

instance (n : Nat) (cs : List Nat) : Decidable (validChoices n cs) := by
  unfold validChoices
  infer_instance

/-- Fuel-indexed greedy chunking loop
(`for (let i = 0; i < n; i += maxTeamSize) slice(i, i + maxTeamSize)`).
Fuel exhaustion and a zero step both yield none, modelling the
non-terminating loop when `maxTeamSize` is not positive. -/
def chunksGo (S : Nat) : Nat → List α → Option (List (List α))
  | _, [] => some []
  | 0, _ :: _ => none
  | fuel + 1, a :: t =>
    if S = 0 then none
    else
      match chunksGo S fuel ((a :: t).drop S) with
      | none => none
      | some rest => some ((a :: t).take S :: rest)

/-- Greedy contiguous chunking of `l` into runs of S; none models the
divergence of the source loop when S = 0 and l is non-empty. -/
def chunksOpt (S : Nat) (l : List α) : Option (List (List α)) :=
  chunksGo S l.length l

/-- Reference chunking with positive size s+1, used to reason about
`chunksOpt` (they agree whenever the step is positive). -/
def chunksP (s : Nat) : List α → List (List α)
  | [] => []
  | a :: t => ((a :: t).take (s + 1)) :: chunksP s ((a :: t).drop (s + 1))
  termination_by l => l.length
  decreasing_by simp [List.length_drop]; omega

/-- Membership documents of one team, from
`for (const [index, member] of teamMembers.entries())`:
index 0 becomes leader, every other index developer, status active. -/
def mkMembers (tid : Nat) (ms : List UserDoc) : List TeamMemberDoc :=
  ms.enum.map (fun p =>
    ⟨tid, p.2.uid, if p.1 = 0 then .leader else .developer, "active"⟩)

/-- Accumulator threaded through the chunk loop of the formation pass:
session-pending team and member writes, observable trace so far, index
of the next session write operation, next team id, and chunk index. -/
structure ChunkAcc where
  txTeams : List TeamDoc
  txMembers : List TeamMemberDoc
  trace : List RunAction
  opIdx : Nat
  nextTid : Nat
  chunkIdx : Nat
  deriving DecidableEq, Repr

/-- Whether the injected fault hits one of the write operations numbered
lo, lo+1, ..., lo+cnt-1. -/
def faultIn (fault : Option Nat) (lo cnt : Nat) : Bool :=
  match fault with
  | none => false
  | some f => decide (lo ≤ f) && decide (f < lo + cnt)

/-- Email payloads pushed for one team: one sendTeamNotification call per
member, teammates being the names of the other members of the chunk. -/
def chunkEmails (title problem tname : String) (ms : List UserDoc) : List RunAction :=
  ms.map (fun u =>
    .emailInvoke ⟨u.email, u.name, title,
      (ms.filter (fun m => m.uid ≠ u.uid)).map (·.name), problem, tname⟩)

/-- Body of `for (let i = 0; ...)` over the chunks: per chunk one
Team.create, one TeamMember.create per member (all inside the session),
then the eager sendTeamNotification invocations pushed onto
emailPromises.  A fault at any of the chunk writes throws, yielding the
trace accumulated so far (emails of earlier chunks included). -/
def runChunks (hid : Nat) (title : String) (ps : List String) (env : Env) :
    List (List UserDoc) → ChunkAcc → ChunkAcc ⊕ List RunAction
  | [], acc => .inl acc
  | ms :: rest, acc =>
    if faultIn env.fault acc.opIdx (1 + ms.length) then
      .inr acc.trace
    else
      let problem := ps.getD (env.probPick acc.chunkIdx) ""
      let tname := env.teamName acc.chunkIdx
      let team : TeamDoc := ⟨acc.nextTid, hid, tname, problem, "not_submitted"⟩
      runChunks hid title ps env rest
        { txTeams := acc.txTeams ++ [team]
          txMembers := acc.txMembers ++ mkMembers acc.nextTid ms
          trace := acc.trace ++ chunkEmails title problem tname ms
          opIdx := acc.opIdx + 1 + ms.length
          nextTid := acc.nextTid + 1
          chunkIdx := acc.chunkIdx + 1 }

/-- Model of `Hackathon.findByIdAndUpdate(_id, set status/teamsFormed)`:
the filter matches on the id alone, so every document with that id is
updated regardless of its current status. -/
def hackFindByIdAndUpdate (hs : List HackathonDoc) (hid : Nat) : List HackathonDoc :=
  hs.map (fun g =>
    if g.hid = hid then
      { g with status := .registration_closed, teamsFormed := true }
    else g)

/-- Modelled from the spec: the status-conditioned variant of the winning
update that section 5 of the spec claims ("enforced by an atomic
status-conditioned update") — it updates a hackathon only when its
current status is still registration_open.  The repository contains no
such conditioned update; this definition exists to be compared with
`hackFindByIdAndUpdate`. -/
def specStatusConditionedUpdate (hs : List HackathonDoc) (hid : Nat) : List HackathonDoc :=
  hs.map (fun g =>
    if g.hid = hid ∧ g.status = .registration_open then
      { g with status := .registration_closed, teamsFormed := true }
    else g)

/-- Outcome classification of one formation run. -/
inductive RunStatus
  | skipped
  | formed
  | failed
  deriving DecidableEq, Repr

/-- Result of one formation run: resulting store, observable trace, and
outcome. -/
structure RunResult where
  store : Store
  trace : List RunAction
  status : RunStatus
  deriving DecidableEq, Repr

/-- The formation pass for one hackathon (createTeamsForHackathon):
guard checks on participants and problem statements (abort + return),
Fisher-Yates shuffle, chunking by maxTeamSize, per-chunk session writes
with eager email invocations, the hackathon status update, the commit,
then Promise.allSettled on the emails and the teams-formed emission.
Returns none when the chunk loop diverges (maxTeamSize = 0 with a
non-empty participant list); a failed run aborts the transaction, so
the store is returned unchanged. -/
def createTeamsForHackathon (store : Store) (h : HackathonDoc) (env : Env) :
    Option RunResult :=
  if h.participants.isEmpty then
    some ⟨store, [.logSkip ("No participants for hackathon: " ++ h.title), .txAbort], .skipped⟩
  else if h.problemStatements.isEmpty then
    some ⟨store, [.logSkip ("No problem statements for hackathon: " ++ h.title), .txAbort], .skipped⟩
  else
    match chunksOpt h.maxTeamSize (fisherYates h.participants env.shuffleChoices) with
    | none => none
    | some cs =>
      match runChunks h.hid h.title h.problemStatements env cs
          ⟨[], [], [], 0, store.nextTeamId, 0⟩ with
      | .inr tr => some ⟨store, tr ++ [.txAbort], .failed⟩
      | .inl acc =>
        if faultIn env.fault acc.opIdx 2 then
          some ⟨store, acc.trace ++ [.txAbort], .failed⟩
        else
          some ⟨{ hackathons := hackFindByIdAndUpdate store.hackathons h.hid
                  teams := store.teams ++ acc.txTeams
                  teamMembers := store.teamMembers ++ acc.txMembers
                  nextTeamId := acc.nextTid },
            acc.trace ++ [.txCommit, .emailsSettle,
              .emitTeamsFormed h.hid (acc.txTeams.map (·.tid))],
            .formed⟩

/-- Eligibility test compiled from the tick query: deadline within the
closed window [now - 60000, now], isActive, status registration_open,
and a non-empty participant array ("participants.0" exists).  The query
has no condition on problemStatements. -/
def codeEligible (now : Int) (h : HackathonDoc) : Bool :=
  decide (h.registrationDeadline ≤ now) &&
  decide (now - 60000 ≤ h.registrationDeadline) &&
  h.isActive &&
  (h.status = .registration_open) &&
  !h.participants.isEmpty

/-- Hackathon.find of the tick: filter the stored hackathons by the
eligibility query. -/
def selectHackathons (now : Int) (hs : List HackathonDoc) : List HackathonDoc :=
  hs.filter (codeEligible now)

/-- Modelled from the spec: the eligibility predicate of section 4.1,
which additionally requires a non-empty problem-statement list.  The
repository query has no such condition; this definition exists to be
compared with `codeEligible`. -/
def specEligible (now : Int) (h : HackathonDoc) : Bool :=
  decide (h.registrationDeadline ≤ now) &&
  decide (now - 60000 ≤ h.registrationDeadline) &&
  h.isActive &&
  (h.status = .registration_open) &&
  !h.participants.isEmpty &&
  !h.problemStatements.isEmpty

/-- Sequential processing of the selected hackathons inside a tick:
`for (const hackathon of hackathons) await createTeamsForHackathon(...)`.
The callee rethrows on failure and the loop sits inside the tick-level
try, so the first failed run ends the loop (ok = false); the store
accumulated for earlier hackathons is kept. -/
def runTickAux (envOf : Nat → Env) :
    List HackathonDoc → Store → List RunAction → Option (Store × List RunAction × Bool)
  | [], store, tr => some (store, tr, true)
  | h :: rest, store, tr =>
    match createTeamsForHackathon store h (envOf h.hid) with
    | none => none
    | some r =>
      if r.status = .failed then some (r.store, tr ++ r.trace, false)
      else runTickAux envOf rest r.store (tr ++ r.trace)

/-- One tick of the scheduler: select the eligible hackathons, then
process them sequentially. -/
def runTick (now : Int) (store : Store) (envOf : Nat → Env) :
    Option (Store × List RunAction × Bool) :=
  runTickAux envOf (selectHackathons now store.hackathons) store []

/-- Teams the chunk loop would create for the given chunks, with team ids
allocated from t0 and chunk indices from k0 (used to characterize a
successful pass of `runChunks`). -/
def planTeams (hid : Nat) (ps : List String) (env : Env) :
    Nat → Nat → List (List UserDoc) → List TeamDoc
  | _, _, [] => []
  | t0, k0, _ :: rest =>
    ⟨t0, hid, env.teamName k0, ps.getD (env.probPick k0) "", "not_submitted"⟩ ::
      planTeams hid ps env (t0 + 1) (k0 + 1) rest

/-- Memberships the chunk loop would create for the given chunks, with
team ids allocated from t0. -/
def planMembers : Nat → List (List UserDoc) → List TeamMemberDoc
  | _, [] => []
  | t0, ms :: rest => mkMembers t0 ms ++ planMembers (t0 + 1) rest

/-- Sample participant with identity n. -/
def mkUser (n : Nat) : UserDoc :=
  ⟨n, "", ""⟩

/-- Sample hackathon with five participants and team size two. -/
def hackA : HackathonDoc :=
  ⟨1, "HackA", 1000, true, .registration_open, 2, ["P1", "P2"],
    [mkUser 1, mkUser 2, mkUser 3, mkUser 4, mkUser 5], false⟩

/-- Sample hackathon with two participants and team size two. -/
def hackB : HackathonDoc :=
  ⟨2, "HackB", 1000, true, .registration_open, 2, ["P1"],
    [mkUser 6, mkUser 7], false⟩

/-- Sample hackathon with an empty problem-statement list. -/
def hackNoProb : HackathonDoc :=
  ⟨3, "HackC", 1000, true, .registration_open, 2, [], [mkUser 8], false⟩

/-- Sample hackathon with maxTeamSize 0. -/
def hackZeroSize : HackathonDoc :=
  ⟨4, "HackD", 1000, true, .registration_open, 0, ["P1"], [mkUser 9], false⟩

/-- Sample hackathon whose status is already registration_closed. -/
def hackClosed : HackathonDoc :=
  ⟨5, "HackE", 1000, true, .registration_closed, 2, ["P1"], [mkUser 10], false⟩

/-- Fault-free environment with fixed shuffle choices and picks. -/
def envOk : Env :=
  ⟨[0, 1, 2, 0], fun _ => 0, fun _ => "T", none⟩

/-- Environment whose first session write throws. -/
def envFail0 : Env :=
  ⟨[0, 1, 2, 0], fun _ => 0, fun _ => "T", some 0⟩

/-- Environment that throws at write operation 8: for a five-participant,
team-size-two hackathon the chunk writes are operations 0..7, so the
fault hits the hackathon status update, after all teams and members were
created. -/
def envFail8 : Env :=
  ⟨[0, 1, 2, 0], fun _ => 0, fun _ => "T", some 8⟩

/-- Environment that throws at write operation 3: for a two-participant,
team-size-two hackathon the single chunk uses operations 0..2, so the
fault hits the hackathon status update, after the team, its members and
the email invocations of the chunk. -/
def envFail3 : Env :=
  ⟨[0, 1, 2, 0], fun _ => 0, fun _ => "T", some 3⟩

/-- Singleton store holding only the two-participant hackathon. -/
def storeB : Store :=
  ⟨[hackB], [], [], 0⟩

/-- The two-participant hackathon after its formation commit. -/
def hackBclosed : HackathonDoc :=
  ⟨2, "HackB", 1000, true, .registration_closed, 2, ["P1"], [mkUser 6, mkUser 7], true⟩

/-- Result of the fault-free formation run on `storeB`/`hackB`/`envOk`:
one committed team of two members led by participant 7, two email
invocations, the commit, the settle and the emission. -/
def resBformed : RunResult :=
  ⟨⟨[hackBclosed],
    [⟨0, 2, "T", "P1", "not_submitted"⟩],
    [⟨0, 7, .leader, "active"⟩, ⟨0, 6, .developer, "active"⟩], 1⟩,
   [.emailInvoke ⟨"", "", "HackB", [""], "P1", "T"⟩,
    .emailInvoke ⟨"", "", "HackB", [""], "P1", "T"⟩,
    .txCommit, .emailsSettle, .emitTeamsFormed 2 [0]],
   .formed⟩

/-- Result of the formation run on `storeB`/`hackB`/`envFail0`: the first
session write throws, so the run fails with the store unchanged. -/
def resBfail0 : RunResult :=
  ⟨storeB, [.txAbort], .failed⟩

theorem swapL_length (l : List α) (i j : Nat) : (swapL l i j).length = l.length := by
  unfold swapL
  cases h1 : l[i]? <;> cases h2 : l[j]? <;> simp

theorem headSwap_perm : ∀ (t : List α) (m : Nat) (x b : α), t[m]? = some b →
    List.Perm (b :: t.set m x) (x :: t) := by
  intro t
  induction t with
  | nil => intro m x b h; simp at h
  | cons y t ih =>
    intro m x b h
    cases m with
    | zero =>
      simp at h
      subst h
      simpa using List.Perm.swap x y t
    | succ m =>
      simp only [List.getElem?_cons_succ] at h
      simp only [List.set_cons_succ]
      exact ((List.Perm.swap y b (t.set m x)).trans
        ((ih m x b h).cons y)).trans (List.Perm.swap x y t)

theorem swapL_perm : ∀ (l : List α) (i j : Nat), List.Perm (swapL l i j) l := by
  intro l
  induction l with
  | nil => intro i j; simp [swapL]
  | cons x t ih =>
    intro i j
    match i, j with
    | 0, 0 => simp [swapL]
    | 0, r + 1 =>
      cases hr : t[r]? with
      | none => simp [swapL, hr]
      | some b =>
        simp only [swapL, List.getElem?_cons_zero, List.getElem?_cons_succ, hr,
          List.set_cons_zero, List.set_cons_succ]
        exact headSwap_perm t r x b hr
    | m + 1, 0 =>
      cases hm : t[m]? with
      | none => simp [swapL, hm]
      | some a =>
        simp only [swapL, List.getElem?_cons_zero, List.getElem?_cons_succ, hm,
          List.set_cons_zero, List.set_cons_succ]
        exact headSwap_perm t m x a hm
    | m + 1, r + 1 =>
      cases hm : t[m]? with
      | none => simp [swapL, hm]
      | some a =>
        cases hr : t[r]? with
        | none => simp [swapL, hm, hr]
        | some b =>
          simp only [swapL, List.getElem?_cons_succ, hm, hr, List.set_cons_succ]
          apply List.Perm.cons
          have : swapL t m r = (t.set m b).set r a := by
            simp [swapL, hm, hr]
          simpa [this] using ih m r

theorem fyAux_length : ∀ (cs : List Nat) (l : List α) (i : Nat),
    (fyAux l i cs).length = l.length := by
  intro cs
  induction cs with
  | nil => intro l i; cases i <;> simp [fyAux]
  | cons c cs ih =>
    intro l i
    cases i with
    | zero => simp [fyAux]
    | succ i => simp [fyAux, ih, swapL_length]

theorem fyAux_perm : ∀ (cs : List Nat) (l : List α) (i : Nat),
    List.Perm (fyAux l i cs) l := by
  intro cs
  induction cs with
  | nil => intro l i; cases i <;> simp [fyAux]
  | cons c cs ih =>
    intro l i
    cases i with
    | zero => simp [fyAux]
    | succ i =>
      exact (ih (swapL l (i + 1) c) i).trans (swapL_perm l (i + 1) c)

theorem fisherYates_perm (l : List α) (cs : List Nat) :
    List.Perm (fisherYates l cs) l :=
  fyAux_perm cs l (l.length - 1)

theorem fisherYates_length (l : List α) (cs : List Nat) :
    (fisherYates l cs).length = l.length :=
  fyAux_length cs l (l.length - 1)

theorem swapL_append (l1 l2 : List α) (i j : Nat) (hi : i < l1.length)
    (hj : j < l1.length) :
    swapL (l1 ++ l2) i j = swapL l1 i j ++ l2 := by
  unfold swapL
  rw [List.getElem?_append_left hi, List.getElem?_append_left hj,
    List.getElem?_eq_getElem hi, List.getElem?_eq_getElem hj]
  simp only
  rw [List.set_append_left _ _ hi, List.set_append_left _ _ (by simpa using hj)]

theorem fyAux_append : ∀ (cs : List Nat) (l1 l2 : List α) (i : Nat),
    i < l1.length → (∀ k, cs.getD k 0 ≤ i - k) →
    fyAux (l1 ++ l2) i cs = fyAux l1 i cs ++ l2 := by
  intro cs
  induction cs with
  | nil => intro l1 l2 i _ _; cases i <;> simp [fyAux]
  | cons c cs ih =>
    intro l1 l2 i hi hv
    cases i with
    | zero => simp [fyAux]
    | succ i =>
      have hc : c ≤ i + 1 := by simpa using hv 0
      have hcl : c < l1.length := Nat.lt_of_le_of_lt hc hi
      simp only [fyAux]
      rw [swapL_append l1 l2 (i + 1) c hi hcl]
      apply ih
      · simpa [swapL_length] using Nat.lt_of_succ_lt hi
      · intro k
        have := hv (k + 1)
        simpa [Nat.succ_sub_succ] using this

theorem swapL_top_getElem (l : List α) (n c : Nat) (hl : l.length = n + 1)
    (hc : c ≤ n) : (swapL l n c)[n]? = l[c]? := by
  have hn : n < l.length := by omega
  have hcl : c < l.length := by omega
  unfold swapL
  rw [List.getElem?_eq_getElem hn, List.getElem?_eq_getElem hcl]
  simp only
  by_cases hcn : c = n
  · subst hcn
    rw [List.set_set]
    rw [List.getElem?_set_eq_of_lt _ (by simpa using hn)]
  · rw [List.getElem?_set_ne (by omega), List.getElem?_set_eq_of_lt _ (by simpa using hn)]

theorem drop_pred_singleton (l : List α) (n : Nat) (hl : l.length = n + 1) :
    ∃ a, l[n]? = some a ∧ l.drop n = [a] := by
  have hn : n < l.length := by omega
  refine ⟨l[n], List.getElem?_eq_getElem hn, ?_⟩
  rw [List.drop_eq_getElem_cons hn]
  rw [List.drop_eq_nil_of_le (by omega)]

theorem fy_top_decomp (l : List α) (k c : Nat) (cs : List Nat)
    (hl : l.length = k + 2) (hc : c ≤ k + 1) (hv : ∀ j, cs.getD j 0 ≤ k - j) :
    ∃ a, l[c]? = some a ∧
      fyAux l (k + 1) (c :: cs) =
        fyAux ((swapL l (k + 1) c).take (k + 1)) k cs ++ [a] := by
  have hlen1 : (swapL l (k + 1) c).length = k + 2 := by
    rw [swapL_length, hl]
  obtain ⟨a, ha1, ha2⟩ := drop_pred_singleton (swapL l (k + 1) c) (k + 1) hlen1
  have hac : l[c]? = some a := by
    rw [← swapL_top_getElem l (k + 1) c hl hc]
    exact ha1
  refine ⟨a, hac, ?_⟩
  have hsplit : swapL l (k + 1) c = (swapL l (k + 1) c).take (k + 1) ++ [a] := by
    conv_lhs => rw [← List.take_append_drop (k + 1) (swapL l (k + 1) c)]
    rw [ha2]
  have htk : k < ((swapL l (k + 1) c).take (k + 1)).length := by
    simp [List.length_take, hlen1]
  have h1 : fyAux l (k + 1) (c :: cs) = fyAux (swapL l (k + 1) c) k cs := rfl
  rw [h1]
  conv_lhs => rw [hsplit]
  exact fyAux_append cs _ _ k htk hv

theorem fy_exists_unique : ∀ (n : Nat) (l : List α), l.length = n → l.Nodup →
    ∀ l', List.Perm l' l → ∃! cs, validChoices n cs ∧ fyAux l (n - 1) cs = l' := by
  intro n
  induction n using Nat.strong_induction_on with
  | _ n ih =>
    obtain _ | n := n
    · intro l hl _ l' hp
      have hle : l = [] := List.length_eq_zero.mp hl
      subst hle
      have hle' : l' = [] := hp.eq_nil
      subst hle'
      refine ⟨[], ⟨⟨rfl, by intro k hk; omega⟩, rfl⟩, ?_⟩
      intro cs ⟨⟨hlen, _⟩, _⟩
      exact List.length_eq_zero.mp hlen
    obtain _ | k := n
    · intro l hl _ l' hp
      obtain ⟨a, ha⟩ := List.length_eq_one.mp hl
      subst ha
      have hl' : l' = [a] := List.perm_singleton.mp hp
      subst hl'
      refine ⟨[], ⟨⟨rfl, by intro k hk; omega⟩, rfl⟩, ?_⟩
      intro cs ⟨⟨hlen, _⟩, _⟩
      exact List.length_eq_zero.mp hlen
    intro l hl hnd l' hp
    have hl'len : l'.length = k + 2 := by rw [hp.length_eq, hl]
    have hl'ne : l' ≠ [] := by
      intro hcon
      rw [hcon] at hl'len
      simp at hl'len
    obtain ⟨c, hcl, hceq⟩ :=
      List.mem_iff_getElem.mp (hp.subset (List.getLast_mem hl'ne))
    rw [hl] at hcl
    have hcle : c ≤ k + 1 := by omega
    have hnd1 : (swapL l (k + 1) c).Nodup := (swapL_perm l (k + 1) c).symm.nodup hnd
    have hpre_len : ((swapL l (k + 1) c).take (k + 1)).length = k + 1 := by
      simp [List.length_take, swapL_length, hl]
    have hnd_pre : ((swapL l (k + 1) c).take (k + 1)).Nodup :=
      (List.take_sublist _ _).nodup hnd1
    -- multiset bookkeeping: the target prefix is a permutation of the
    -- shuffled prefix
    have hms : (l' : Multiset α) = (l : Multiset α) := Multiset.coe_eq_coe.mpr hp
    have hms1 : ((swapL l (k + 1) c : List α) : Multiset α) = (l : Multiset α) :=
      Multiset.coe_eq_coe.mpr (swapL_perm l (k + 1) c)
    obtain ⟨a1, ha1, hdrop⟩ :=
      drop_pred_singleton (swapL l (k + 1) c) (k + 1) (by rw [swapL_length, hl])
    have h2 : l[c]? = some a1 := by
      rw [← swapL_top_getElem l (k + 1) c hl hcle]
      exact ha1
    have ha1v : a1 = l'.getLast hl'ne := by
      have h3 : l[c]? = some (l'.getLast hl'ne) := by
        rw [List.getElem?_eq_getElem (show c < l.length by omega), hceq]
      exact Option.some_inj.mp (h2.symm.trans h3)
    have hsplit : swapL l (k + 1) c = (swapL l (k + 1) c).take (k + 1) ++ [a1] := by
      conv_lhs => rw [← List.take_append_drop (k + 1) (swapL l (k + 1) c)]
      rw [hdrop]
    have hperm_pre :
        List.Perm l'.dropLast ((swapL l (k + 1) c).take (k + 1)) := by
      apply Multiset.coe_eq_coe.mp
      have e1 : (l' : Multiset α) =
          (l'.dropLast : Multiset α) + {l'.getLast hl'ne} := by
        conv_lhs => rw [← List.dropLast_append_getLast hl'ne]
        rfl
      have e2 : ((swapL l (k + 1) c : List α) : Multiset α) =
          (((swapL l (k + 1) c).take (k + 1) : List α) : Multiset α) + {a1} := by
        conv_lhs => rw [hsplit]
        rfl
      have e3 : (l'.dropLast : Multiset α) + {l'.getLast hl'ne} =
          (((swapL l (k + 1) c).take (k + 1) : List α) : Multiset α) +
            {l'.getLast hl'ne} := by
      -- chain: dropLast + last = l' = l = swapped = take + a1 = take + last
        rw [← e1, hms, ← hms1, e2, ha1v]
      exact add_right_cancel e3
    have hIH := ih (k + 1) (by omega) ((swapL l (k + 1) c).take (k + 1))
      hpre_len hnd_pre l'.dropLast hperm_pre
    obtain ⟨cs0, ⟨⟨hlen0, hbound0⟩, hfy0⟩, huniq0⟩ := hIH
    simp only [Nat.add_sub_cancel] at hfy0 huniq0
    have hlen0' : cs0.length = k := by simpa using hlen0
    have hv0' : ∀ j, cs0.getD j 0 ≤ k - j := by
      intro j
      by_cases hj : j < k
      · simpa using hbound0 j (by simpa using hj)
      · rw [List.getD_eq_default _ _ (by omega)]
        exact Nat.zero_le _
    refine ⟨c :: cs0, ⟨⟨by simpa using hlen0', ?_⟩, ?_⟩, ?_⟩
    · intro j hj
      cases j with
      | zero => simpa using hcle
      | succ j => simpa using hv0' j
    · obtain ⟨a2, ha2c, hdec⟩ := fy_top_decomp l k c cs0 hl hcle hv0'
      have ha2 : a2 = a1 := Option.some_inj.mp (ha2c.symm.trans h2)
      show fyAux l (k + 1) (c :: cs0) = l'
      rw [hdec, hfy0, ha2, ha1v, List.dropLast_append_getLast hl'ne]
    · intro cs2 hcs2
      obtain ⟨⟨hlen2, hbound2⟩, hfy2⟩ := hcs2
      simp only [Nat.add_sub_cancel] at hfy2
      cases cs2 with
      | nil => simp at hlen2
      | cons c2 cs2' =>
        have hc2 : c2 ≤ k + 1 := by simpa using hbound2 0 (by omega)
        have hlen2' : cs2'.length = k := by simpa using hlen2
        have hv2' : ∀ j, cs2'.getD j 0 ≤ k - j := by
          intro j
          by_cases hj : j < k
          · have := hbound2 (j + 1) (by simpa using Nat.succ_lt_succ hj)
            simpa using this
          · rw [List.getD_eq_default _ _ (by omega)]
            exact Nat.zero_le _
        obtain ⟨a3, ha3c, hdec2⟩ := fy_top_decomp l k c2 cs2' hl hc2 hv2'
        have hfy2' : fyAux ((swapL l (k + 1) c2).take (k + 1)) k cs2' ++ [a3] =
            l'.dropLast ++ [l'.getLast hl'ne] := by
          rw [← hdec2, hfy2, List.dropLast_append_getLast hl'ne]
        have hlen_eq : (fyAux ((swapL l (k + 1) c2).take (k + 1)) k cs2').length =
            l'.dropLast.length := by
          rw [fyAux_length, List.length_take, swapL_length, hl,
            List.length_dropLast, hl'len]
          omega
        obtain ⟨hpre_eq, hlast_eq⟩ := List.append_inj hfy2' hlen_eq
        have ha3 : a3 = l'.getLast hl'ne := by simpa using hlast_eq
        have hc2l : c2 < l.length := by omega
        have ha3g : l[c2] = a3 := by
          have := List.getElem?_eq_getElem hc2l
          rw [ha3c] at this
          exact Option.some_inj.mp this.symm
        have hceq2 : l[c2] = l[c] := by
          rw [ha3g, ha3, ← hceq]
        have hcc : c2 = c := hnd.getElem_inj_iff.mp hceq2
        subst hcc
        have : cs2' = cs0 := by
          apply huniq0
          exact ⟨⟨by simpa using hlen2', by intro j hj; simpa using hv2' j⟩, hpre_eq⟩
        rw [this]

theorem chunksGo_eq_chunksP (s : Nat) : ∀ (fuel : Nat) (l : List α),
    l.length ≤ fuel → chunksGo (s + 1) fuel l = some (chunksP s l) := by
  intro fuel
  induction fuel with
  | zero =>
    intro l hfl
    have : l = [] := List.length_eq_zero.mp (by omega)
    subst this
    simp [chunksGo, chunksP]
  | succ fuel ih =>
    intro l hfl
    cases l with
    | nil => simp [chunksGo, chunksP]
    | cons a t =>
      have hdl : ((a :: t).drop (s + 1)).length ≤ fuel := by
        simp only [List.length_drop, List.length_cons]
        simp only [List.length_cons] at hfl
        omega
      simp only [chunksGo, Nat.succ_ne_zero, if_false, ih _ hdl]
      rw [chunksP]

theorem chunksOpt_pos (s : Nat) (l : List α) :
    chunksOpt (s + 1) l = some (chunksP s l) :=
  chunksGo_eq_chunksP s l.length l (Nat.le_refl _)

theorem chunksOpt_zero (l : List α) (h : l ≠ []) : chunksOpt 0 l = none := by
  cases l with
  | nil => exact absurd rfl h
  | cons a t => simp [chunksOpt, chunksGo]

theorem chunksP_flatten_bounded (s : Nat) : ∀ (n : Nat) (l : List α),
    l.length ≤ n → (chunksP s l).flatten = l := by
  intro n
  induction n with
  | zero =>
    intro l hl
    have : l = [] := List.length_eq_zero.mp (by omega)
    subst this
    simp [chunksP]
  | succ n ih =>
    intro l hl
    cases l with
    | nil => simp [chunksP]
    | cons a t =>
      rw [chunksP]
      simp only [List.flatten_cons]
      rw [ih _ (by simp at hl ⊢; omega)]
      exact List.take_append_drop (s + 1) (a :: t)

theorem chunksP_flatten (s : Nat) (l : List α) : (chunksP s l).flatten = l :=
  chunksP_flatten_bounded s l.length l (Nat.le_refl _)

theorem chunksP_length_bounded (s : Nat) : ∀ (n : Nat) (l : List α),
    l.length ≤ n → (chunksP s l).length = (l.length + s) / (s + 1) := by
  intro n
  induction n with
  | zero =>
    intro l hl
    have : l = [] := List.length_eq_zero.mp (by omega)
    subst this
    simp [chunksP]
    exact (Nat.div_eq_of_lt (by omega)).symm
  | succ n ih =>
    intro l hl
    cases l with
    | nil =>
      simp [chunksP]
      exact (Nat.div_eq_of_lt (by omega)).symm
    | cons a t =>
      rw [chunksP]
      simp only [List.length_cons]
      rw [ih _ (by simp at hl ⊢; omega)]
      simp only [List.length_drop, List.length_cons]
      by_cases hns : t.length ≤ s
      · have h1 : t.length + 1 - (s + 1) = 0 := by omega
        rw [h1]
        have h2 : t.length + 1 + s = t.length + (s + 1) := by omega
        rw [h2, Nat.add_div_right _ (by omega)]
        have h3 : (0 + s) / (s + 1) = 0 := Nat.div_eq_of_lt (by omega)
        have h4 : t.length / (s + 1) = 0 := Nat.div_eq_of_lt (by omega)
        rw [h3, h4]
      · have h1 : t.length + 1 - (s + 1) + s = t.length := by omega
        rw [h1]
        have h2 : t.length + 1 + s = t.length + (s + 1) := by omega
        rw [h2, Nat.add_div_right _ (by omega)]

theorem chunksP_length (s : Nat) (l : List α) :
    (chunksP s l).length = (l.length + s) / (s + 1) :=
  chunksP_length_bounded s l.length l (Nat.le_refl _)

theorem chunksP_nil_iff (s : Nat) (l : List α) : chunksP s l = [] ↔ l = [] := by
  cases l with
  | nil => simp [chunksP]
  | cons a t => rw [chunksP]; simp

theorem chunksP_sizes_bounded (s : Nat) : ∀ (n : Nat) (l : List α),
    l.length ≤ n → ∀ c ∈ chunksP s l, 0 < c.length ∧ c.length ≤ s + 1 := by
  intro n
  induction n with
  | zero =>
    intro l hl
    have : l = [] := List.length_eq_zero.mp (by omega)
    subst this
    simp [chunksP]
  | succ n ih =>
    intro l hl c hc
    cases l with
    | nil => simp [chunksP] at hc
    | cons a t =>
      rw [chunksP] at hc
      rcases List.mem_cons.mp hc with h | h
      · subst h
        constructor
        · simp
        · simp only [List.length_take]
          omega
      · exact ih _ (by simp at hl ⊢; omega) c h

theorem chunksP_sizes (s : Nat) (l : List α) :
    ∀ c ∈ chunksP s l, 0 < c.length ∧ c.length ≤ s + 1 :=
  chunksP_sizes_bounded s l.length l (Nat.le_refl _)

theorem chunksP_dropLast_bounded (s : Nat) : ∀ (n : Nat) (l : List α),
    l.length ≤ n → ∀ c ∈ (chunksP s l).dropLast, c.length = s + 1 := by
  intro n
  induction n with
  | zero =>
    intro l hl
    have : l = [] := List.length_eq_zero.mp (by omega)
    subst this
    simp [chunksP]
  | succ n ih =>
    intro l hl c hc
    cases l with
    | nil => simp [chunksP] at hc
    | cons a t =>
      rw [chunksP] at hc
      by_cases hrest : chunksP s ((a :: t).drop (s + 1)) = []
      · rw [hrest] at hc
        simp at hc
      · rw [List.dropLast_cons_of_ne_nil hrest] at hc
        rcases List.mem_cons.mp hc with h | h
        · subst h
          have hdne : (a :: t).drop (s + 1) ≠ [] := by
            intro hcon
            exact hrest (by rw [hcon]; simp [chunksP])
          have : s + 1 < (a :: t).length := by
            by_contra hcon
            exact hdne (List.drop_eq_nil_of_le (by omega))
          simp only [List.length_take]
          omega
        · exact ih _ (by simp at hl ⊢; omega) c h

theorem chunksP_dropLast (s : Nat) (l : List α) :
    ∀ c ∈ (chunksP s l).dropLast, c.length = s + 1 :=
  chunksP_dropLast_bounded s l.length l (Nat.le_refl _)

theorem getLast?_cons_ne (x : α) (l : List α) (h : l ≠ []) :
    (x :: l).getLast? = l.getLast? := by
  cases l with
  | nil => exact absurd rfl h
  | cons y t => exact List.getLast?_cons_cons

theorem chunksP_getLast_bounded (s : Nat) : ∀ (n : Nat) (l : List α),
    l.length ≤ n → l ≠ [] → ∃ c, (chunksP s l).getLast? = some c ∧
      c.length = if l.length % (s + 1) = 0 then s + 1 else l.length % (s + 1) := by
  intro n
  induction n with
  | zero =>
    intro l hl hne
    exact absurd (List.length_eq_zero.mp (by omega)) hne
  | succ n ih =>
    intro l hl hne
    cases l with
    | nil => exact absurd rfl hne
    | cons a t =>
      rw [chunksP]
      by_cases hd : (a :: t).drop (s + 1) = []
      · have hlen : (a :: t).length ≤ s + 1 := by
          by_contra hcon
          have hpos : 0 < ((a :: t).drop (s + 1)).length := by
            rw [List.length_drop]
            omega
          rw [hd] at hpos
          simp at hpos
        rw [hd]
        simp only [chunksP, List.getLast?_singleton]
        refine ⟨(a :: t).take (s + 1), rfl, ?_⟩
        rw [List.take_of_length_le hlen]
        simp only [List.length_cons] at hlen ⊢
        by_cases hmod : t.length + 1 = s + 1
        · rw [hmod]
          simp
        · have : (t.length + 1) % (s + 1) = t.length + 1 := Nat.mod_eq_of_lt (by omega)
          rw [this, if_neg (by omega)]
      · obtain ⟨c, hc1, hc2⟩ := ih ((a :: t).drop (s + 1))
          (by
            rw [List.length_drop]
            simp only [List.length_cons] at hl ⊢
            omega) hd
        refine ⟨c, ?_, ?_⟩
        · rw [getLast?_cons_ne _ _ (fun hcon => hd ((chunksP_nil_iff s _).mp hcon))]
          exact hc1
        · rw [hc2, List.length_drop, List.length_cons]
          have hlen : s + 1 ≤ t.length + 1 := by
            by_contra hcon
            exact hd (List.drop_eq_nil_of_le (by simp; omega))
          rw [← Nat.mod_eq_sub_mod (by omega)]

theorem chunksP_getLast (s : Nat) (l : List α) (hne : l ≠ []) :
    ∃ c, (chunksP s l).getLast? = some c ∧
      c.length = if l.length % (s + 1) = 0 then s + 1 else l.length % (s + 1) :=
  chunksP_getLast_bounded s l.length l (Nat.le_refl _) hne

theorem chunksP_at_most_one_small (s : Nat) (l : List α) :
    (chunksP s l).countP (fun c => decide (c.length < s + 1)) ≤ 1 := by
  by_cases hne : chunksP s l = []
  · rw [hne]
    simp
  · have hdecomp := List.dropLast_append_getLast hne
    conv_lhs => rw [← hdecomp]
    rw [List.countP_append]
    have h0 : ((chunksP s l).dropLast).countP (fun c => decide (c.length < s + 1)) = 0 := by
      apply List.countP_eq_zero.mpr
      intro c hc
      have := chunksP_dropLast s l c hc
      simp [this]
    rw [h0]
    have hle : ([(chunksP s l).getLast hne] : List (List α)).countP
        (fun c => decide (c.length < s + 1)) ≤ 1 := by
      simpa using List.countP_le_length
        (l := [(chunksP s l).getLast hne])
        (fun c => decide (c.length < s + 1))
    omega

theorem runChunks_inl (hid : Nat) (title : String) (ps : List String) (env : Env) :
    ∀ (cs : List (List UserDoc)) (acc res : ChunkAcc),
    runChunks hid title ps env cs acc = .inl res →
    res.txTeams = acc.txTeams ++ planTeams hid ps env acc.nextTid acc.chunkIdx cs ∧
    res.txMembers = acc.txMembers ++ planMembers acc.nextTid cs ∧
    res.nextTid = acc.nextTid + cs.length := by
  intro cs
  induction cs with
  | nil =>
    intro acc res hres
    simp [runChunks] at hres
    subst hres
    simp [planTeams, planMembers]
  | cons ms rest ih =>
    intro acc res hres
    rw [runChunks] at hres
    by_cases hf : faultIn env.fault acc.opIdx (1 + ms.length)
    · rw [if_pos hf] at hres
      simp at hres
    · rw [if_neg hf] at hres
      obtain ⟨h1, h2, h3⟩ := ih _ res hres
      refine ⟨?_, ?_, ?_⟩
      · rw [h1]
        simp only [planTeams, List.append_assoc, List.cons_append, List.nil_append]
      · rw [h2]
        simp only [planMembers, List.append_assoc]
      · rw [h3]
        simp only [List.length_cons]
        omega

theorem createTeams_not_formed (store : Store) (h : HackathonDoc) (env : Env)
    (r : RunResult) (hr : createTeamsForHackathon store h env = some r)
    (hst : r.status ≠ .formed) : r.store = store := by
  unfold createTeamsForHackathon at hr
  by_cases h1 : h.participants.isEmpty
  · rw [if_pos h1] at hr
    obtain rfl := Option.some_inj.mp hr.symm
    rfl
  · rw [if_neg h1] at hr
    by_cases h2 : h.problemStatements.isEmpty
    · rw [if_pos h2] at hr
      obtain rfl := Option.some_inj.mp hr.symm
      rfl
    · rw [if_neg h2] at hr
      cases hck : chunksOpt h.maxTeamSize (fisherYates h.participants env.shuffleChoices) with
      | none => rw [hck] at hr; simp at hr
      | some cs =>
        rw [hck] at hr
        simp only at hr
        cases hrc : runChunks h.hid h.title h.problemStatements env cs
            ⟨[], [], [], 0, store.nextTeamId, 0⟩ with
        | inr tr =>
          rw [hrc] at hr
          dsimp only at hr
          obtain rfl := Option.some_inj.mp hr.symm
          rfl
        | inl acc =>
          rw [hrc] at hr
          dsimp only at hr
          by_cases hf : faultIn env.fault acc.opIdx 2
          · rw [if_pos hf] at hr
            obtain rfl := Option.some_inj.mp hr.symm
            rfl
          · rw [if_neg hf] at hr
            obtain rfl := Option.some_inj.mp hr.symm
            exact absurd rfl hst

theorem createTeams_formed (store : Store) (h : HackathonDoc) (env : Env)
    (r : RunResult) (hr : createTeamsForHackathon store h env = some r)
    (hst : r.status = .formed) :
    ∃ cs, chunksOpt h.maxTeamSize (fisherYates h.participants env.shuffleChoices) = some cs ∧
      r.store.teams = store.teams ++ planTeams h.hid h.problemStatements env store.nextTeamId 0 cs ∧
      r.store.teamMembers = store.teamMembers ++ planMembers store.nextTeamId cs ∧
      r.store.hackathons = hackFindByIdAndUpdate store.hackathons h.hid ∧
      r.store.nextTeamId = store.nextTeamId + cs.length ∧
      h.participants ≠ [] ∧ h.problemStatements ≠ [] := by
  unfold createTeamsForHackathon at hr
  by_cases h1 : h.participants.isEmpty
  · rw [if_pos h1] at hr
    obtain rfl := Option.some_inj.mp hr.symm
    simp at hst
  · rw [if_neg h1] at hr
    by_cases h2 : h.problemStatements.isEmpty
    · rw [if_pos h2] at hr
      obtain rfl := Option.some_inj.mp hr.symm
      simp at hst
    · rw [if_neg h2] at hr
      cases hck : chunksOpt h.maxTeamSize (fisherYates h.participants env.shuffleChoices) with
      | none => rw [hck] at hr; simp at hr
      | some cs =>
        rw [hck] at hr
        simp only at hr
        cases hrc : runChunks h.hid h.title h.problemStatements env cs
            ⟨[], [], [], 0, store.nextTeamId, 0⟩ with
        | inr tr =>
          rw [hrc] at hr
          dsimp only at hr
          obtain rfl := Option.some_inj.mp hr.symm
          simp at hst
        | inl acc =>
          rw [hrc] at hr
          dsimp only at hr
          by_cases hf : faultIn env.fault acc.opIdx 2
          · rw [if_pos hf] at hr
            obtain rfl := Option.some_inj.mp hr.symm
            simp at hst
          · rw [if_neg hf] at hr
            obtain rfl := Option.some_inj.mp hr.symm
            obtain ⟨ht, hm, hn⟩ := runChunks_inl h.hid h.title h.problemStatements env
              cs ⟨[], [], [], 0, store.nextTeamId, 0⟩ acc hrc
            simp only at ht hm hn
            refine ⟨cs, rfl, ?_, ?_, rfl, ?_, ?_, ?_⟩
            · simp only [ht, List.nil_append]
            · simp only [hm, List.nil_append]
            · simp only [hn]
            · intro hcon
              rw [hcon] at h1
              simp at h1
            · intro hcon
              rw [hcon] at h2
              simp at h2

theorem mkMembers_length (tid : Nat) (ms : List UserDoc) :
    (mkMembers tid ms).length = ms.length := by
  simp [mkMembers]

theorem mkMembers_map_userId (tid : Nat) (ms : List UserDoc) :
    (mkMembers tid ms).map (·.userId) = ms.map (·.uid) := by
  conv_rhs => rw [← List.enum_map_snd ms]
  simp only [mkMembers, List.map_map]
  rfl

theorem mkMembers_teamId (tid : Nat) (ms : List UserDoc) :
    ∀ m ∈ mkMembers tid ms, m.teamId = tid := by
  intro m hm
  simp only [mkMembers, List.mem_map] at hm
  obtain ⟨p, _, hp⟩ := hm
  rw [← hp]

theorem enumFrom_role_developer (tid : Nat) : ∀ (ms : List UserDoc) (n : Nat), n ≠ 0 →
    ((List.enumFrom n ms).map (fun p =>
      (⟨tid, p.2.uid, if p.1 = 0 then Role.leader else Role.developer, "active"⟩ :
        TeamMemberDoc))).map (·.role) = List.replicate ms.length Role.developer := by
  intro ms
  induction ms with
  | nil => intro n _; simp
  | cons m rest ih =>
    intro n hn
    simp only [List.enumFrom, List.map_cons, List.length_cons, List.replicate_succ]
    rw [if_neg hn]
    exact congrArg (Role.developer :: ·) (ih (n + 1) (by omega))

theorem mkMembers_map_role (tid : Nat) (m : UserDoc) (rest : List UserDoc) :
    (mkMembers tid (m :: rest)).map (·.role) =
      Role.leader :: List.replicate rest.length Role.developer := by
  have hdev := enumFrom_role_developer tid rest 1 (by omega)
  simp only [mkMembers, List.enum, List.enumFrom, List.map_cons]
  simp only [List.map_map] at hdev ⊢
  simp [hdev]

theorem countP_beq_count_map {β : Type} [DecidableEq β] (f : TeamMemberDoc → β)
    (b : β) : ∀ (l : List TeamMemberDoc),
    l.countP (fun m => f m == b) = (l.map f).count b := by
  intro l
  induction l with
  | nil => simp
  | cons m rest ih =>
    simp only [List.countP_cons, List.map_cons, List.count_cons, ih]

theorem planMembers_map_userId : ∀ (t0 : Nat) (cs : List (List UserDoc)),
    (planMembers t0 cs).map (·.userId) =
      (cs.map (fun ms => ms.map (·.uid))).flatten := by
  intro t0 cs
  induction cs generalizing t0 with
  | nil => simp [planMembers]
  | cons ms rest ih =>
    simp only [planMembers]
    rw [List.map_append, mkMembers_map_userId, ih (t0 + 1)]
    simp [List.map_cons, List.flatten_cons]

theorem flatten_map_map {β : Type} (f : α → β) : ∀ (cs : List (List α)),
    (cs.map (List.map f)).flatten = cs.flatten.map f := by
  intro cs
  induction cs with
  | nil => simp
  | cons ms rest ih =>
    simp only [List.map_cons, List.flatten_cons, List.map_append]
    rw [ih]

theorem planMembers_teamId_bounds : ∀ (t0 : Nat) (cs : List (List UserDoc)),
    ∀ m ∈ planMembers t0 cs, t0 ≤ m.teamId ∧ m.teamId < t0 + cs.length := by
  intro t0 cs
  induction cs generalizing t0 with
  | nil => simp [planMembers]
  | cons ms rest ih =>
    intro m hm
    simp only [planMembers, List.mem_append] at hm
    rcases hm with hm | hm
    · have := mkMembers_teamId t0 ms m hm
      simp only [List.length_cons, this]
      omega
    · have := ih (t0 + 1) m hm
      simp only [List.length_cons]
      omega

theorem planMembers_filter : ∀ (cs : List (List UserDoc)) (t0 k : Nat)
    (ms : List UserDoc), cs[k]? = some ms →
    (planMembers t0 cs).filter (fun m => m.teamId == t0 + k) =
      mkMembers (t0 + k) ms := by
  intro cs
  induction cs with
  | nil => intro t0 k ms hk; simp at hk
  | cons c rest ih =>
    intro t0 k ms hk
    simp only [planMembers, List.filter_append]
    cases k with
    | zero =>
      have hcm : c = ms := by simpa using hk
      subst hcm
      simp only [Nat.add_zero]
      have h1 : (mkMembers t0 c).filter (fun m => m.teamId == t0) =
          mkMembers t0 c := by
        apply List.filter_eq_self.mpr
        intro m hm
        simp [mkMembers_teamId t0 c m hm]
      have h2 : (planMembers (t0 + 1) rest).filter (fun m => m.teamId == t0) = [] := by
        apply List.filter_eq_nil_iff.mpr
        intro m hm
        have := planMembers_teamId_bounds (t0 + 1) rest m hm
        simp only [beq_iff_eq]
        omega
      rw [h1, h2, List.append_nil]
    | succ j =>
      simp only [List.getElem?_cons_succ] at hk
      have h1 : (mkMembers t0 c).filter (fun m => m.teamId == t0 + (j + 1)) = [] := by
        apply List.filter_eq_nil_iff.mpr
        intro m hm
        have := mkMembers_teamId t0 c m hm
        simp only [beq_iff_eq, this]
        omega
      have h2 := ih (t0 + 1) j ms hk
      rw [h1, List.nil_append]
      have harith : t0 + 1 + j = t0 + (j + 1) := by omega
      rw [← harith]
      exact h2

theorem planTeams_length (hid : Nat) (ps : List String) (env : Env) :
    ∀ (cs : List (List UserDoc)) (t0 k0 : Nat),
    (planTeams hid ps env t0 k0 cs).length = cs.length := by
  intro cs
  induction cs with
  | nil => intro t0 k0; rfl
  | cons ms rest ih =>
    intro t0 k0
    simp only [planTeams, List.length_cons, ih]

theorem planTeams_getElem (hid : Nat) (ps : List String) (env : Env) :
    ∀ (cs : List (List UserDoc)) (t0 k0 k : Nat), k < cs.length →
    (planTeams hid ps env t0 k0 cs)[k]? =
      some ⟨t0 + k, hid, env.teamName (k0 + k), ps.getD (env.probPick (k0 + k)) "",
        "not_submitted"⟩ := by
  intro cs
  induction cs with
  | nil => intro t0 k0 k hk; simp at hk
  | cons ms rest ih =>
    intro t0 k0 k hk
    cases k with
    | zero => simp [planTeams]
    | succ j =>
      simp only [planTeams, List.getElem?_cons_succ]
      have := ih (t0 + 1) (k0 + 1) j (by simp at hk; omega)
      rw [this]
      have h1 : t0 + 1 + j = t0 + (j + 1) := by omega
      have h2 : k0 + 1 + j = k0 + (j + 1) := by omega
      rw [h1, h2]

theorem planTeams_hackathonId (hid : Nat) (ps : List String) (env : Env) :
    ∀ (cs : List (List UserDoc)) (t0 k0 : Nat),
    ∀ t ∈ planTeams hid ps env t0 k0 cs, t.hackathonId = hid := by
  intro cs
  induction cs with
  | nil => intro t0 k0 t ht; simp [planTeams] at ht
  | cons ms rest ih =>
    intro t0 k0 t ht
    simp only [planTeams, List.mem_cons] at ht
    rcases ht with ht | ht
    · rw [ht]
    · exact ih (t0 + 1) (k0 + 1) t ht

theorem hackFindByIdAndUpdate_closed (hs : List HackathonDoc) (hid : Nat) :
    ∀ g ∈ hackFindByIdAndUpdate hs hid, g.hid = hid →
      g.status = .registration_closed ∧ g.teamsFormed = true := by
  intro g hg hgid
  simp only [hackFindByIdAndUpdate, List.mem_map] at hg
  obtain ⟨g0, _, hg0⟩ := hg
  by_cases hc : g0.hid = hid
  · rw [if_pos hc] at hg0
    rw [← hg0]
    exact ⟨rfl, rfl⟩
  · rw [if_neg hc] at hg0
    rw [← hg0] at hgid
    exact absurd hgid hc

theorem codeEligible_of_closed (now : Int) (g : HackathonDoc)
    (hst : g.status = .registration_closed) : codeEligible now g = false := by
  simp [codeEligible, hst]

theorem selectHackathons_mem (now : Int) (hs : List HackathonDoc) (g : HackathonDoc) :
    g ∈ selectHackathons now hs ↔ g ∈ hs ∧ codeEligible now g = true :=
  List.mem_filter

theorem createTeams_own_teams (store : Store) (h : HackathonDoc) (env : Env)
    (r : RunResult) (hr : createTeamsForHackathon store h env = some r)
    (hst : r.status = .formed) :
    ∃ ts, r.store.teams = store.teams ++ ts ∧ ∀ t ∈ ts, t.hackathonId = h.hid := by
  obtain ⟨cs, _, ht, _, _, _, _, _⟩ := createTeams_formed store h env r hr hst
  exact ⟨_, ht, planTeams_hackathonId h.hid h.problemStatements env cs store.nextTeamId 0⟩

theorem runTickAux_teams_filter (envOf : Nat → Env) (hid : Nat) :
    ∀ (docs : List HackathonDoc) (store : Store) (tr : List RunAction)
      (st₂ : Store) (tr₂ : List RunAction) (ok₂ : Bool),
    (∀ g ∈ docs, g.hid ≠ hid) →
    runTickAux envOf docs store tr = some (st₂, tr₂, ok₂) →
    st₂.teams.filter (fun t => t.hackathonId == hid) =
      store.teams.filter (fun t => t.hackathonId == hid) := by
  intro docs
  induction docs with
  | nil =>
    intro store tr st₂ tr₂ ok₂ _ hrun
    simp [runTickAux] at hrun
    rw [hrun.1]
  | cons g rest ih =>
    intro store tr st₂ tr₂ ok₂ hdocs hrun
    rw [runTickAux] at hrun
    cases hg : createTeamsForHackathon store g (envOf g.hid) with
    | none => rw [hg] at hrun; simp at hrun
    | some r =>
      rw [hg] at hrun
      dsimp only at hrun
      by_cases hst : r.status = .failed
      · rw [if_pos (by simp [hst])] at hrun
        obtain ⟨h1, _, _⟩ := Prod.mk.injEq .. ▸ (Option.some_inj.mp hrun)
        have hrs : r.store = store :=
          createTeams_not_formed store g (envOf g.hid) r hg (by simp [hst])
        rw [← h1, hrs]
      · rw [if_neg (by simp [hst])] at hrun
        by_cases hform : r.status = .formed
        · obtain ⟨ts, hts, hall⟩ := createTeams_own_teams store g (envOf g.hid) r hg hform
          have hrest := ih r.store (tr ++ r.trace) st₂ tr₂ ok₂
            (fun g' hg' => hdocs g' (List.mem_cons_of_mem g hg')) hrun
          rw [hrest, hts, List.filter_append]
          have hnil : ts.filter (fun t => t.hackathonId == hid) = [] := by
            apply List.filter_eq_nil_iff.mpr
            intro t ht
            have h1 := hall t ht
            have h2 := hdocs g (List.mem_cons_self g rest)
            simp [h1, h2]
          rw [hnil, List.append_nil]
        · have hrs : r.store = store :=
            createTeams_not_formed store g (envOf g.hid) r hg hform
          have hrest := ih r.store (tr ++ r.trace) st₂ tr₂ ok₂
            (fun g' hg' => hdocs g' (List.mem_cons_of_mem g hg')) hrun
          rw [hrest, hrs]

theorem runTickAux_failed_stops (envOf : Nat → Env) (h : HackathonDoc)
    (rest : List HackathonDoc) (store : Store) (tr : List RunAction)
    (r : RunResult) (hr : createTeamsForHackathon store h (envOf h.hid) = some r)
    (hf : r.status = .failed) :
    runTickAux envOf (h :: rest) store tr = some (store, tr ++ r.trace, false) := by
  rw [runTickAux, hr]
  dsimp only
  rw [if_pos (by simp [hf])]
  have hrs : r.store = store :=
    createTeams_not_formed store h (envOf h.hid) r hr (by simp [hf])
  rw [hrs]

theorem formed_chunks_eq (store : Store) (h : HackathonDoc) (env : Env)
    (r : RunResult) (hr : createTeamsForHackathon store h env = some r)
    (hform : r.status = .formed) :
    ∃ s, h.maxTeamSize = s + 1 ∧
      chunksOpt h.maxTeamSize (fisherYates h.participants env.shuffleChoices) =
        some (chunksP s (fisherYates h.participants env.shuffleChoices)) := by
  obtain ⟨cs, hck, _, _, _, _, hpne, _⟩ := createTeams_formed store h env r hr hform
  have hsne : fisherYates h.participants env.shuffleChoices ≠ [] := by
    intro hcon
    have hlen := fisherYates_length h.participants env.shuffleChoices
    rw [hcon] at hlen
    simp only [List.length_nil] at hlen
    exact hpne (List.length_eq_zero.mp hlen.symm)
  cases hS : h.maxTeamSize with
  | zero =>
    rw [hS, chunksOpt_zero _ hsne] at hck
    simp at hck
  | succ s =>
    exact ⟨s, rfl, chunksOpt_pos s _⟩

/-- C1: for every hackathon processed by the formation pass, the creation
of all Team records, all TeamMembership records, and the hackathon
status/teamsFormed transition take effect together or not at all: a run
that fails at any session write (including after creating teams but
before the hackathon update) or that is skipped leaves the store exactly
as before the attempt, and a formed run applies all three effects. -/
theorem claim_C1_atomic_commit (store : Store) (h : HackathonDoc) (env : Env)
    (r : RunResult) (hr : createTeamsForHackathon store h env = some r) :
    (r.status = .failed → r.store = store) ∧
    (r.status = .skipped → r.store = store) ∧
    (r.status = .formed →
      ∃ ts ms, r.store.teams = store.teams ++ ts ∧
        r.store.teamMembers = store.teamMembers ++ ms ∧
        r.store.hackathons = hackFindByIdAndUpdate store.hackathons h.hid) := by
  refine ⟨fun hf => createTeams_not_formed store h env r hr (by simp [hf]),
    fun hsk => createTeams_not_formed store h env r hr (by simp [hsk]),
    fun hform => ?_⟩
  obtain ⟨cs, _, ht, hm, hh, _, _, _⟩ := createTeams_formed store h env r hr hform
  exact ⟨_, _, ht, hm, hh⟩

/-- Witness for C1 at a concrete faulted run: the first session write of
the two-participant hackathon throws and the store is unchanged. -/
theorem claim_C1_atomic_commit_witness :
    createTeamsForHackathon storeB hackB envFail0 = some resBfail0 ∧
    ((resBfail0.status = .failed → resBfail0.store = storeB) ∧
     (resBfail0.status = .skipped → resBfail0.store = storeB) ∧
     (resBfail0.status = .formed →
       ∃ ts ms, resBfail0.store.teams = storeB.teams ++ ts ∧
         resBfail0.store.teamMembers = storeB.teamMembers ++ ms ∧
         resBfail0.store.hackathons = hackFindByIdAndUpdate storeB.hackathons hackB.hid)) :=
  ⟨by decide, claim_C1_atomic_commit storeB hackB envFail0 resBfail0 (by decide)⟩

/-- C4: for every participant list of size N at least 1 and team-size
bound S at least 1, the partitioner produces exactly the ceiling of N/S
groups by contiguous chunking, every group has between 1 and S members,
every group except possibly the last has exactly S members, the last has
N mod S members when that is nonzero (else S), and at most one group has
fewer than S members. -/
theorem claim_C4_partition_shape (l : List UserDoc) (S : Nat) (hS : 1 ≤ S)
    (hne : l ≠ []) :
    ∃ cs, chunksOpt S l = some cs ∧ cs.flatten = l ∧
      cs.length = (l.length + S - 1) / S ∧
      (∀ c ∈ cs, 1 ≤ c.length ∧ c.length ≤ S) ∧
      (∀ c ∈ cs.dropLast, c.length = S) ∧
      (∃ c, cs.getLast? = some c ∧
        c.length = if l.length % S = 0 then S else l.length % S) ∧
      cs.countP (fun c => decide (c.length < S)) ≤ 1 := by
  obtain ⟨s, rfl⟩ : ∃ s, S = s + 1 := ⟨S - 1, by omega⟩
  refine ⟨chunksP s l, chunksOpt_pos s l, chunksP_flatten s l, ?_, ?_,
    chunksP_dropLast s l, chunksP_getLast s l hne, chunksP_at_most_one_small s l⟩
  · rw [chunksP_length]
    have harith : l.length + (s + 1) - 1 = l.length + s := by omega
    rw [harith]
  · intro c hc
    have := chunksP_sizes s l c hc
    omega

/-- Witness for C4 at the five-participant list with team size two. -/
theorem claim_C4_partition_shape_witness :
    1 ≤ 2 ∧ hackA.participants ≠ [] ∧
    (∃ cs, chunksOpt 2 hackA.participants = some cs ∧ cs.flatten = hackA.participants ∧
      cs.length = (hackA.participants.length + 2 - 1) / 2 ∧
      (∀ c ∈ cs, 1 ≤ c.length ∧ c.length ≤ 2) ∧
      (∀ c ∈ cs.dropLast, c.length = 2) ∧
      (∃ c, cs.getLast? = some c ∧
        c.length = if hackA.participants.length % 2 = 0 then 2
          else hackA.participants.length % 2) ∧
      cs.countP (fun c => decide (c.length < 2)) ≤ 1) :=
  ⟨by decide, by decide,
    claim_C4_partition_shape hackA.participants 2 (by decide) (by decide)⟩

/-- C5: the participant shuffle is an unbiased in-place Fisher-Yates
permutation: for every participant list the output is a permutation of
the input for every choice stream, and for a duplicate-free list every
permutation of it is produced by exactly one valid choice stream, so a
uniform random source yields every permutation with equal probability. -/
theorem claim_C5_shuffle_unbiased (l : List UserDoc) (hnd : l.Nodup) :
    (∀ cs, List.Perm (fisherYates l cs) l) ∧
    (∀ l', List.Perm l' l →
      ∃! cs, validChoices l.length cs ∧ fisherYates l cs = l') :=
  ⟨fun cs => fisherYates_perm l cs,
   fun l' hp => fy_exists_unique l.length l rfl hnd l' hp⟩

/-- Witness for C5 at a three-participant list. -/
theorem claim_C5_shuffle_unbiased_witness :
    ([mkUser 1, mkUser 2, mkUser 3] : List UserDoc).Nodup ∧
    ((∀ cs, List.Perm (fisherYates [mkUser 1, mkUser 2, mkUser 3] cs)
        [mkUser 1, mkUser 2, mkUser 3]) ∧
     (∀ l', List.Perm l' [mkUser 1, mkUser 2, mkUser 3] →
       ∃! cs, validChoices ([mkUser 1, mkUser 2, mkUser 3] : List UserDoc).length cs ∧
         fisherYates [mkUser 1, mkUser 2, mkUser 3] cs = l')) :=
  ⟨by decide, claim_C5_shuffle_unbiased [mkUser 1, mkUser 2, mkUser 3] (by decide)⟩

/-- C2: for every hackathon on which the formation pass commits, with
participants having pairwise distinct identities, the memberships added
by the commit number exactly N (the participant count) and every
participant appears in exactly one of them. -/
theorem claim_C2_completeness (store : Store) (h : HackathonDoc) (env : Env)
    (r : RunResult) (hr : createTeamsForHackathon store h env = some r)
    (hform : r.status = .formed)
    (hnd : (h.participants.map (·.uid)).Nodup) :
    r.store.teamMembers.length = store.teamMembers.length + h.participants.length ∧
    ∀ u ∈ h.participants,
      ((r.store.teamMembers.drop store.teamMembers.length).map (·.userId)).count
        u.uid = 1 := by
  obtain ⟨cs, hck, _, hm, _, _, _, _⟩ := createTeams_formed store h env r hr hform
  obtain ⟨s, hS, hck2⟩ := formed_chunks_eq store h env r hr hform
  obtain rfl := Option.some_inj.mp (hck.symm.trans hck2)
  have hnew : r.store.teamMembers.drop store.teamMembers.length =
      planMembers store.nextTeamId (chunksP s (fisherYates h.participants env.shuffleChoices)) := by
    rw [hm, List.drop_left]
  have hmap : (r.store.teamMembers.drop store.teamMembers.length).map (·.userId) =
      (fisherYates h.participants env.shuffleChoices).map (·.uid) := by
    rw [hnew, planMembers_map_userId, flatten_map_map, chunksP_flatten]
  have hperm : List.Perm ((fisherYates h.participants env.shuffleChoices).map (·.uid))
      (h.participants.map (·.uid)) :=
    (fisherYates_perm h.participants env.shuffleChoices).map (·.uid)
  constructor
  · rw [hm, List.length_append]
    have hlen : (planMembers store.nextTeamId
        (chunksP s (fisherYates h.participants env.shuffleChoices))).length =
        h.participants.length := by
      have h1 := congrArg List.length hmap
      rw [hnew] at h1
      simp only [List.length_map] at h1
      rw [h1, fisherYates_length]
    rw [hlen]
  · intro u hu
    rw [hmap, hperm.count_eq]
    exact List.count_eq_one_of_mem hnd (List.mem_map_of_mem (·.uid) hu)

/-- Witness for C2 at the concrete two-participant formed run. -/
theorem claim_C2_completeness_witness :
    createTeamsForHackathon storeB hackB envOk = some resBformed ∧
    resBformed.status = .formed ∧
    (hackB.participants.map (·.uid)).Nodup ∧
    (resBformed.store.teamMembers.length =
      storeB.teamMembers.length + hackB.participants.length ∧
    ∀ u ∈ hackB.participants,
      ((resBformed.store.teamMembers.drop storeB.teamMembers.length).map
        (·.userId)).count u.uid = 1) :=
  ⟨by decide, by decide, by decide,
    claim_C2_completeness storeB hackB envOk resBformed (by decide) (by decide) (by decide)⟩

/-- C6: for every team created by a successful formation, the
memberships of that team carry role leader exactly at the first member
of the team's post-shuffle partition chunk and developer everywhere
else, their userIds are exactly the chunk in order, and exactly one
membership per team has role leader. -/
theorem claim_C6_leader_role (store : Store) (h : HackathonDoc) (env : Env)
    (r : RunResult) (hr : createTeamsForHackathon store h env = some r)
    (hform : r.status = .formed) :
    ∃ cs : List (List UserDoc),
      chunksOpt h.maxTeamSize (fisherYates h.participants env.shuffleChoices) =
        some cs ∧
      (r.store.teams.drop store.teams.length).length = cs.length ∧
      ∀ (k : Nat) (ms : List UserDoc), cs[k]? = some ms →
        ∃ t : TeamDoc, (r.store.teams.drop store.teams.length)[k]? = some t ∧
          ((r.store.teamMembers.drop store.teamMembers.length).filter
              (fun m => m.teamId == t.tid)).map (·.role) =
            Role.leader :: List.replicate (ms.length - 1) Role.developer ∧
          ((r.store.teamMembers.drop store.teamMembers.length).filter
              (fun m => m.teamId == t.tid)).map (·.userId) = ms.map (·.uid) ∧
          ((r.store.teamMembers.drop store.teamMembers.length).filter
              (fun m => m.teamId == t.tid)).countP
            (fun m => m.role == Role.leader) = 1 := by
  obtain ⟨cs, hck, ht, hm, _, _, _, _⟩ := createTeams_formed store h env r hr hform
  obtain ⟨s, hS, hck2⟩ := formed_chunks_eq store h env r hr hform
  have hcseq : cs = chunksP s (fisherYates h.participants env.shuffleChoices) :=
    Option.some_inj.mp (hck.symm.trans hck2)
  have hteams : r.store.teams.drop store.teams.length =
      planTeams h.hid h.problemStatements env store.nextTeamId 0 cs := by
    rw [ht, List.drop_left]
  have hmems : r.store.teamMembers.drop store.teamMembers.length =
      planMembers store.nextTeamId cs := by
    rw [hm, List.drop_left]
  refine ⟨cs, hck, ?_, ?_⟩
  · rw [hteams, planTeams_length]
  · intro k ms hk
    have hklt : k < cs.length := by
      by_contra hcon
      rw [List.getElem?_eq_none (by omega)] at hk
      simp at hk
    refine ⟨⟨store.nextTeamId + k, h.hid, env.teamName (0 + k),
      h.problemStatements.getD (env.probPick (0 + k)) "", "not_submitted"⟩, ?_, ?_⟩
    · rw [hteams]
      exact planTeams_getElem h.hid h.problemStatements env cs store.nextTeamId 0 k hklt
    · have hfilter : ((r.store.teamMembers.drop store.teamMembers.length).filter
          (fun m => m.teamId == store.nextTeamId + k)) = mkMembers (store.nextTeamId + k) ms := by
        rw [hmems]
        exact planMembers_filter cs store.nextTeamId k ms hk
      have hmsne : 0 < ms.length := by
        have hmem : ms ∈ cs := by
          have := List.getElem?_eq_some.mp hk
          obtain ⟨hb, hval⟩ := this
          rw [← hval]
          exact List.getElem_mem hb
        rw [hcseq] at hmem
        exact (chunksP_sizes s _ ms hmem).1
      obtain ⟨m0, mrest, rfl⟩ : ∃ m0 mrest, ms = m0 :: mrest := by
        cases ms with
        | nil => simp at hmsne
        | cons m0 mrest => exact ⟨m0, mrest, rfl⟩
      refine ⟨?_, ?_, ?_⟩
      · rw [hfilter, mkMembers_map_role]
        simp
      · rw [hfilter, mkMembers_map_userId]
      · rw [hfilter, countP_beq_count_map, mkMembers_map_role]
        simp [List.count_cons, List.count_replicate]

/-- Witness for C6 at the concrete two-participant formed run. -/
theorem claim_C6_leader_role_witness :
    createTeamsForHackathon storeB hackB envOk = some resBformed ∧
    resBformed.status = .formed ∧
    (∃ cs : List (List UserDoc), chunksOpt hackB.maxTeamSize
        (fisherYates hackB.participants envOk.shuffleChoices) = some cs ∧
      (resBformed.store.teams.drop storeB.teams.length).length = cs.length ∧
      ∀ (k : Nat) (ms : List UserDoc), cs[k]? = some ms →
        ∃ t : TeamDoc,
          (resBformed.store.teams.drop storeB.teams.length)[k]? = some t ∧
          ((resBformed.store.teamMembers.drop storeB.teamMembers.length).filter
              (fun m => m.teamId == t.tid)).map (·.role) =
            Role.leader :: List.replicate (ms.length - 1) Role.developer ∧
          ((resBformed.store.teamMembers.drop storeB.teamMembers.length).filter
              (fun m => m.teamId == t.tid)).map (·.userId) = ms.map (·.uid) ∧
          ((resBformed.store.teamMembers.drop storeB.teamMembers.length).filter
              (fun m => m.teamId == t.tid)).countP
            (fun m => m.role == Role.leader) = 1) :=
  ⟨by decide, by decide,
    claim_C6_leader_role storeB hackB envOk resBformed (by decide) (by decide)⟩

/-- C3 counterexample: the winning update of the formation commit is not
status-conditioned.  Applied to a hackathon whose status is already
registration_closed, `Hackathon.findByIdAndUpdate` (keyed on the id
alone) still modifies the document, whereas the status-conditioned
update claimed by the spec would match nothing and leave it unchanged. -/
theorem claim_C3_counterexample :
    hackFindByIdAndUpdate [hackClosed] hackClosed.hid ≠ [hackClosed] ∧
    specStatusConditionedUpdate [hackClosed] hackClosed.hid = [hackClosed] := by
  decide

/-- C3 amended: a failed formation run leaves the store unchanged, so no
teams persist from that attempt; after a successful commit every stored
document with the hackathon's id has status registration_closed, the
tick selector never selects it again, and any later tick adds no team
owned by that hackathon.  The update itself, however, is keyed only on
the hackathon id (see the counterexample): at-most-once formation rests
on the selector's status filter, not on a status-conditioned update. -/
theorem claim_C3_formation_at_most_once (store : Store) (h : HackathonDoc)
    (env : Env) (r : RunResult)
    (hr : createTeamsForHackathon store h env = some r) :
    (r.status = .failed → r.store = store) ∧
    (r.status = .formed →
      (∀ g ∈ r.store.hackathons, g.hid = h.hid → g.status = .registration_closed) ∧
      (∀ (now₂ : Int) (g : HackathonDoc),
        g ∈ selectHackathons now₂ r.store.hackathons → g.hid ≠ h.hid) ∧
      (∀ (now₂ : Int) (envOf : Nat → Env) (st₂ : Store) (tr₂ : List RunAction)
        (ok₂ : Bool), runTick now₂ r.store envOf = some (st₂, tr₂, ok₂) →
        st₂.teams.filter (fun t => t.hackathonId == h.hid) =
          r.store.teams.filter (fun t => t.hackathonId == h.hid))) := by
  constructor
  · intro hf
    exact createTeams_not_formed store h env r hr (by simp [hf])
  · intro hform
    obtain ⟨cs, _, _, _, hh, _, _, _⟩ := createTeams_formed store h env r hr hform
    have hclosed : ∀ g ∈ r.store.hackathons, g.hid = h.hid →
        g.status = .registration_closed := by
      intro g hg hgid
      rw [hh] at hg
      exact (hackFindByIdAndUpdate_closed store.hackathons h.hid g hg hgid).1
    have hnosel : ∀ (now₂ : Int) (g : HackathonDoc),
        g ∈ selectHackathons now₂ r.store.hackathons → g.hid ≠ h.hid := by
      intro now₂ g hgsel hgid
      obtain ⟨hgmem, helig⟩ := (selectHackathons_mem now₂ _ g).mp hgsel
      rw [codeEligible_of_closed now₂ g (hclosed g hgmem hgid)] at helig
      exact Bool.false_ne_true helig
    refine ⟨hclosed, hnosel, ?_⟩
    intro now₂ envOf st₂ tr₂ ok₂ htick
    exact runTickAux_teams_filter envOf h.hid _ r.store [] st₂ tr₂ ok₂
      (fun g hg => hnosel now₂ g hg) htick

/-- Witness for the amended C3 at the concrete two-participant run. -/
theorem claim_C3_formation_at_most_once_witness :
    createTeamsForHackathon storeB hackB envOk = some resBformed ∧
    ((resBformed.status = .failed → resBformed.store = storeB) ∧
     (resBformed.status = .formed →
       (∀ g ∈ resBformed.store.hackathons, g.hid = hackB.hid →
         g.status = .registration_closed) ∧
       (∀ (now₂ : Int) (g : HackathonDoc),
         g ∈ selectHackathons now₂ resBformed.store.hackathons → g.hid ≠ hackB.hid) ∧
       (∀ (now₂ : Int) (envOf : Nat → Env) (st₂ : Store) (tr₂ : List RunAction)
         (ok₂ : Bool), runTick now₂ resBformed.store envOf = some (st₂, tr₂, ok₂) →
         st₂.teams.filter (fun t => t.hackathonId == hackB.hid) =
           resBformed.store.teams.filter (fun t => t.hackathonId == hackB.hid)))) :=
  ⟨by decide,
    claim_C3_formation_at_most_once storeB hackB envOk resBformed (by decide)⟩

/-- C7 counterexample: a hackathon with an empty problem-statement list
but otherwise eligible fields is returned by the tick query, while the
eligibility predicate of the spec excludes it — the query has no
condition on problem statements. -/
theorem claim_C7_counterexample :
    selectHackathons 1000 [hackNoProb] = [hackNoProb] ∧
    specEligible 1000 hackNoProb = false := by
  decide

/-- C7 amended: the selector returns exactly the stored hackathons whose
registrationDeadline lies in the closed window [now - 60s, now] with
isActive true, status registration_open and a non-empty participant set
(the non-empty problem-statement condition is checked later, by the
formation pass, not by the selector), and it returns the empty
collection rather than an error when nothing qualifies. -/
theorem claim_C7_selector (now : Int) (hs : List HackathonDoc) :
    (∀ g, g ∈ selectHackathons now hs ↔
      g ∈ hs ∧ g.registrationDeadline ≤ now ∧ now - 60000 ≤ g.registrationDeadline ∧
        g.isActive = true ∧ g.status = .registration_open ∧ g.participants ≠ []) ∧
    ((∀ g ∈ hs, codeEligible now g = false) → selectHackathons now hs = []) := by
  constructor
  · intro g
    rw [selectHackathons_mem]
    constructor
    · rintro ⟨hmem, helig⟩
      simp only [codeEligible, Bool.and_eq_true, decide_eq_true_eq, beq_iff_eq,
        Bool.not_eq_true', List.isEmpty_eq_false] at helig
      obtain ⟨⟨⟨⟨h1, h2⟩, h3⟩, h4⟩, h5⟩ := helig
      exact ⟨hmem, h1, h2, h3, h4, h5⟩
    · rintro ⟨hmem, h1, h2, h3, h4, h5⟩
      refine ⟨hmem, ?_⟩
      simp only [codeEligible, Bool.and_eq_true, decide_eq_true_eq, beq_iff_eq,
        Bool.not_eq_true', List.isEmpty_eq_false]
      exact ⟨⟨⟨⟨h1, h2⟩, h3⟩, h4⟩, h5⟩
  · intro hall
    apply List.filter_eq_nil_iff.mpr
    intro g hg
    simp [hall g hg]

/-- Witness for the amended C7 at a concrete window and store. -/
theorem claim_C7_selector_witness :
    (∀ g, g ∈ selectHackathons 1000 [hackA] ↔
      g ∈ [hackA] ∧ g.registrationDeadline ≤ 1000 ∧
        (1000 : Int) - 60000 ≤ g.registrationDeadline ∧
        g.isActive = true ∧ g.status = .registration_open ∧ g.participants ≠ []) ∧
    ((∀ g ∈ [hackA], codeEligible 1000 g = false) →
      selectHackathons 1000 [hackA] = []) :=
  claim_C7_selector 1000 [hackA]

/-- C9 counterexample: two eligible hackathons in one tick; the first
run fails at its first session write, and the tick ends with the store
unchanged — the second hackathon is not processed in that tick, even
though processing it alone would have formed its teams. -/
theorem claim_C9_counterexample :
    runTick 1000 ⟨[hackA, hackB], [], [], 100⟩
        (fun hid => if hid = 1 then envFail0 else envOk) =
      some (⟨[hackA, hackB], [], [], 100⟩, [.txAbort], false) ∧
    (createTeamsForHackathon ⟨[hackA, hackB], [], [], 100⟩ hackB envOk).map
      (·.status) = some .formed := by
  decide

/-- C9 amended: createTeamsForHackathon rethrows, and the per-hackathon
loop sits inside the tick-level try, so the first failed run ends the
tick: the tick result is independent of the remaining hackathons (they
are not processed until a later tick), the store keeps only the effects
of the hackathons processed before the failure, and the failed run
itself leaves the store unchanged. -/
theorem claim_C9_failure_aborts_siblings (envOf : Nat → Env) (h : HackathonDoc)
    (rest rest' : List HackathonDoc) (store : Store) (tr : List RunAction)
    (r : RunResult) (hr : createTeamsForHackathon store h (envOf h.hid) = some r)
    (hf : r.status = .failed) :
    runTickAux envOf (h :: rest) store tr = some (store, tr ++ r.trace, false) ∧
    runTickAux envOf (h :: rest) store tr = runTickAux envOf (h :: rest') store tr := by
  have h1 := runTickAux_failed_stops envOf h rest store tr r hr hf
  have h2 := runTickAux_failed_stops envOf h rest' store tr r hr hf
  exact ⟨h1, h1.trans h2.symm⟩

/-- Witness for the amended C9 at a concrete failed run heading a tick. -/
theorem claim_C9_failure_aborts_siblings_witness :
    createTeamsForHackathon storeB hackB ((fun _ => envFail0) hackB.hid) =
      some resBfail0 ∧
    resBfail0.status = .failed ∧
    (runTickAux (fun _ => envFail0) (hackB :: [hackA]) storeB [] =
      some (storeB, [] ++ resBfail0.trace, false) ∧
    runTickAux (fun _ => envFail0) (hackB :: [hackA]) storeB [] =
      runTickAux (fun _ => envFail0) (hackB :: []) storeB []) :=
  ⟨by decide, by decide,
    claim_C9_failure_aborts_siblings (fun _ => envFail0) hackB [hackA] [] storeB []
      resBfail0 (by decide) (by decide)⟩

/-- C10 counterexample: a hackathon that reaches the formation step with
a non-empty participant set, a non-empty problem-statement list and
maxTeamSize 0 is not skipped: the chunking loop never terminates
(modelled as none), so the pass neither skips nor terminates cleanly
for it. -/
theorem claim_C10_counterexample :
    createTeamsForHackathon ⟨[hackZeroSize], [], [], 0⟩ hackZeroSize envOk = none := by
  decide

/-- C10 amended: the formation pass skips a hackathon exactly on an
empty participant set or an empty problem-statement list — logging the
condition, aborting the transaction and returning with no team, member,
status change, notification or event; a non-positive maxTeamSize is not
checked, and with maxTeamSize 0 and non-empty inputs the pass fails to
terminate (modelled as none) instead of skipping. -/
theorem claim_C10_precondition_skips (store : Store) (h : HackathonDoc) (env : Env) :
    (h.participants = [] →
      createTeamsForHackathon store h env =
        some ⟨store, [.logSkip ("No participants for hackathon: " ++ h.title),
          .txAbort], .skipped⟩) ∧
    (h.participants ≠ [] → h.problemStatements = [] →
      createTeamsForHackathon store h env =
        some ⟨store, [.logSkip ("No problem statements for hackathon: " ++ h.title),
          .txAbort], .skipped⟩) ∧
    (h.participants ≠ [] → h.problemStatements ≠ [] → h.maxTeamSize = 0 →
      createTeamsForHackathon store h env = none) := by
  refine ⟨?_, ?_, ?_⟩
  · intro hp
    unfold createTeamsForHackathon
    rw [if_pos (by simp [hp])]
  · intro hp hps
    unfold createTeamsForHackathon
    rw [if_neg (by simpa [List.isEmpty_eq_false] using hp),
      if_pos (by simp [hps])]
  · intro hp hps hS
    unfold createTeamsForHackathon
    rw [if_neg (by simpa [List.isEmpty_eq_false] using hp),
      if_neg (by simpa [List.isEmpty_eq_false] using hps)]
    have hsne : fisherYates h.participants env.shuffleChoices ≠ [] := by
      intro hcon
      have hlen := fisherYates_length h.participants env.shuffleChoices
      rw [hcon] at hlen
      simp only [List.length_nil] at hlen
      exact hp (List.length_eq_zero.mp hlen.symm)
    rw [hS, chunksOpt_zero _ hsne]

/-- Witness for the amended C10 at the problem-statement-free hackathon. -/
theorem claim_C10_precondition_skips_witness :
    (hackNoProb.participants = [] →
      createTeamsForHackathon ⟨[hackNoProb], [], [], 0⟩ hackNoProb envOk =
        some ⟨⟨[hackNoProb], [], [], 0⟩,
          [.logSkip ("No participants for hackathon: " ++ hackNoProb.title),
            .txAbort], .skipped⟩) ∧
    (hackNoProb.participants ≠ [] → hackNoProb.problemStatements = [] →
      createTeamsForHackathon ⟨[hackNoProb], [], [], 0⟩ hackNoProb envOk =
        some ⟨⟨[hackNoProb], [], [], 0⟩,
          [.logSkip ("No problem statements for hackathon: " ++ hackNoProb.title),
            .txAbort], .skipped⟩) ∧
    (hackNoProb.participants ≠ [] → hackNoProb.problemStatements ≠ [] →
      hackNoProb.maxTeamSize = 0 →
      createTeamsForHackathon ⟨[hackNoProb], [], [], 0⟩ hackNoProb envOk = none) :=
  claim_C10_precondition_skips ⟨[hackNoProb], [], [], 0⟩ hackNoProb envOk

/-- C8: the code contradicts its own comment that all emails are sent
outside the transaction — sendTeamNotification is invoked for each chunk
inside the loop, before commitTransaction.  At a concrete run whose
status update throws, the transaction aborts with the store unchanged
and no commit in the trace, yet two email invocations were already
attempted; and in the fault-free run the two email invocations precede
the commit in the trace. -/
theorem claim_C8_email_attempt_before_commit :
    ((createTeamsForHackathon storeB hackB envFail3).map
      (fun r => (r.status, r.store == storeB,
        r.trace.countP RunAction.isEmailInvoke,
        r.trace.countP RunAction.isCommit)) =
      some (.failed, true, 2, 0)) ∧
    ((createTeamsForHackathon storeB hackB envOk).map
      (fun r => (r.trace.take 2).all RunAction.isEmailInvoke &&
        (r.trace.getD 2 .txAbort == .txCommit)) = some true) := by
  decide
